import Mathlib

/-!
# Verification of the SimpleBacktester engine (`src/analysis/backtests.py`)

Shallow embedding of `SimpleBacktester.run_backtest`.  The Python engine walks a
close-price series and a signal series forward in time, mutates a cash balance
and a position quantity, records trades, builds a mark-to-market equity curve,
and finally derives summary metrics (total return, Sharpe ratio, max drawdown,
win rate).

Modelling conventions:
* IEEE-754 doubles are idealised as exact rationals (`ℚ`); the Sharpe ratio,
  which multiplies by `sqrt 252`, is the one real-valued (`ℝ`) quantity.
* Bar timestamps (`df.index[i]`) are modelled by the bar index `i : ℕ`; the
  pandas index is strictly increasing, so order comparisons coincide.
* Signals are integers (the source compares them with `== 1` / `== -1`).
* `pandas.Series.pct_change().dropna()` drops the first (undefined) entry; mid
  series entries are dropped only for a `0/0` bar, which cannot occur while all
  equity points are nonzero — `pctChange` below models the nowhere-zero case,
  the one the metric theorems quantify over.
* The minimum of an empty pandas series is NaN, and `abs(NaN)*100` stays NaN;
  the `max_drawdown` field is therefore an `Option ℚ`, `none` modelling NaN.
* Division by zero: `ℚ` division by zero yields 0 while numpy yields ±inf; no
  theorem below evaluates a trade at a zero price, and hypotheses keep prices
  nonzero wherever a quantity `trade_amount / price` is formed.
-/

/-- Trade side: the `'type'` field (`'BUY'` / `'SELL'`) of a trade record. -/
inductive Side where
  | buy : Side
  | sell : Side
deriving DecidableEq, Repr

/-- One record appended to the `trades` list by the simulation loop:
`{'timestamp': df.index[i], 'type': …, 'price': current_price,
  'quantity': …, 'balance': balance}`. -/
structure Trade where
  timestamp : ℕ
  side : Side
  price : ℚ
  quantity : ℚ
  balance : ℚ
deriving DecidableEq, Repr

/-- The mutable simulation state of `run_backtest`: `balance`, `position`,
the `trades` log and the `equity_curve` list. -/
structure BtState where
  balance : ℚ
  position : ℚ
  trades : List Trade
  equity : List ℚ
deriving DecidableEq, Repr

/-- State before the loop: `balance = self.initial_balance`, `position = 0`,
`trades = []`, `equity_curve = [balance]`. -/
def initState (initial_balance : ℚ) : BtState :=
  { balance := initial_balance, position := 0, trades := [], equity := [initial_balance] }

/-- The trade (if any) the loop body executes for lagged signal `sig` at bar
`i` with execution price `price`, from state `st`.  Mirrors the two guarded
branches of the loop:
`if prev_signal == 1 and position == 0` appends a BUY with
`quantity = balance*position_size/price` and the post-deduction balance;
`elif prev_signal == -1 and position > 0` appends a SELL with the
post-proceeds balance. -/
def execTrade (commission position_size : ℚ) (i : ℕ) (price : ℚ) (sig : ℤ)
    (st : BtState) : Option Trade :=
  if sig = 1 ∧ st.position = 0 then
    let amount := st.balance * position_size
    let pos := amount / price
    some ⟨i, Side.buy, price, pos, st.balance - (amount + amount * commission)⟩
  else if sig = -1 ∧ 0 < st.position then
    let value := st.position * price
    some ⟨i, Side.sell, price, st.position, st.balance + (value - value * commission)⟩
  else none

/-- The trade-execution part of one loop iteration (everything before the
equity append).  Branches exactly as the source:
Buy: `trade_amount = balance * position_size`;
`position = trade_amount / current_price`;
`commission_cost = trade_amount * self.commission`;
`balance -= (trade_amount + commission_cost)`.
Sell: `trade_value = position * current_price`;
`commission_cost = trade_value * self.commission`;
`balance += (trade_value - commission_cost)`; `position = 0`.
Otherwise no state change. -/
def applySignal (commission position_size : ℚ) (i : ℕ) (price : ℚ) (sig : ℤ)
    (st : BtState) : BtState :=
  if sig = 1 ∧ st.position = 0 then
    let amount := st.balance * position_size
    let pos := amount / price
    let fee := amount * commission
    let bal := st.balance - (amount + fee)
    { balance := bal, position := pos,
      trades := st.trades ++ [⟨i, Side.buy, price, pos, bal⟩],
      equity := st.equity }
  else if sig = -1 ∧ 0 < st.position then
    let value := st.position * price
    let fee := value * commission
    let bal := st.balance + (value - fee)
    { balance := bal, position := 0,
      trades := st.trades ++ [⟨i, Side.sell, price, st.position, bal⟩],
      equity := st.equity }
  else st

/-- One full iteration of `for i in range(1, len(df))`: execute the lagged
signal, then append the mark-to-market equity
`current_equity = balance + (position * current_price if position > 0 else 0)`. -/
def stepBar (commission position_size : ℚ) (i : ℕ) (price : ℚ) (sig : ℤ)
    (st : BtState) : BtState :=
  let st' := applySignal commission position_size i price sig st
  { st' with
    equity := st'.equity ++ [st'.balance + (if 0 < st'.position then st'.position * price else 0)] }

/-- State after processing bars `1 .. k`:
`runSteps … k` is the loop state once iteration `i = k` has run
(`k = 0` is the state before the loop).  Iteration `i` reads
`current_price = df.iloc[i]['close']` and `prev_signal = df.iloc[i-1]['signal']`. -/
def runSteps (commission position_size initial_balance : ℚ)
    (closes : List ℚ) (signals : List ℤ) : ℕ → BtState
  | 0 => initState initial_balance
  | k + 1 =>
      stepBar commission position_size (k + 1) (closes.getD (k + 1) 0) (signals.getD k 0)
        (runSteps commission position_size initial_balance closes signals k)

/-- Forced liquidation after the loop: `if position > 0`, sell at the last
close (`df.iloc[-1]['close']`) with the Exit-rule commission formula and
overwrite the final equity point (`equity_curve[-1] = balance`).  The source
does not reset `position` and appends no trade record here. -/
def closeFinal (commission : ℚ) (lastPrice : ℚ) (st : BtState) : BtState :=
  if 0 < st.position then
    let value := st.position * lastPrice
    let fee := value * commission
    let bal := st.balance + (value - fee)
    { st with balance := bal, equity := st.equity.set (st.equity.length - 1) bal }
  else st

/-- `equity_series.pct_change().dropna()`: per-bar returns
`r_i = e_i / e_{i-1} - 1` for `i ≥ 1` (the undefined first entry dropped).
Models the pandas computation on equity curves with no zero entries (see the
header note on `dropna`). -/
def pctChange (l : List ℚ) : List ℚ :=
  (l.zip l.tail).map fun pc => pc.2 / pc.1 - 1

/-- Running products: `cumProdAux acc xs` lists the partial products of `xs`
starting from accumulator `acc`. -/
def cumProdAux : ℚ → List ℚ → List ℚ
  | _, [] => []
  | acc, x :: xs => (acc * x) :: cumProdAux (acc * x) xs

/-- `cumulative = (1 + returns).cumprod()`. -/
def cumulativeOf (r : List ℚ) : List ℚ :=
  cumProdAux 1 (r.map fun x => 1 + x)

/-- Running maxima with seed `m`. -/
def runningMaxAux : ℚ → List ℚ → List ℚ
  | _, [] => []
  | m, x :: xs => (max m x) :: runningMaxAux (max m x) xs

/-- `running_max = cumulative.expanding().max()`. -/
def runningMaxOf : List ℚ → List ℚ
  | [] => []
  | x :: xs => x :: runningMaxAux x xs

/-- `drawdown = (cumulative - running_max) / running_max`, pointwise, where
`running_max` is the expanding maximum of the cumulative series. -/
def drawdownOf (r : List ℚ) : List ℚ :=
  ((cumulativeOf r).zip (runningMaxOf (cumulativeOf r))).map fun z => (z.1 - z.2) / z.2

/-- `max_drawdown = abs(drawdown.min()) * 100`.  The minimum of an empty pandas
series is NaN and `abs` propagates it, hence the `Option`: `none` models NaN
(empty return series), `some v` the real value. -/
def maxDrawdownOf (r : List ℚ) : Option ℚ :=
  (drawdownOf r).min?.map fun m => |m| * 100

/-- Sample mean of the return series (`returns.mean()`). -/
def sampleMean (l : List ℚ) : ℚ := l.sum / l.length

/-- Sample variance with one delta degree of freedom, the square of
`returns.std()` (pandas default `ddof=1`).  For a singleton list the `ℚ`
division by zero yields 0; pandas yields NaN there, and both fail the
strict-positivity test guarding the Sharpe formula, so the branch taken
agrees. -/
def sampleVar (l : List ℚ) : ℚ :=
  (l.map fun x => (x - sampleMean l) ^ 2).sum / ((l.length : ℚ) - 1)

open scoped Classical in
/-- Annualized Sharpe ratio of the return series:
`if len(returns) > 0 and returns.std() > 0:
   sharpe_ratio = (returns.mean() / returns.std()) * np.sqrt(252)
 else: sharpe_ratio = 0.0`
with `returns.std() = sqrt(sampleVar)`.  Real-valued because of the square
roots; the Python stores this number in the result object, here it is derived
from the same return series. -/
noncomputable def sharpeRatioOf (r : List ℚ) : ℝ :=
  if 0 < r.length ∧ 0 < Real.sqrt (sampleVar r) then
    ((sampleMean r : ℝ) / Real.sqrt (sampleVar r)) * Real.sqrt 252
  else 0

/-- `trades_df[trades_df['type'] == 'BUY']` (filtering preserves log order). -/
def buyTrades (l : List Trade) : List Trade :=
  l.filter fun t => t.side = Side.buy

/-- `trades_df[trades_df['type'] == 'SELL']`. -/
def sellTrades (l : List Trade) : List Trade :=
  l.filter fun t => t.side = Side.sell

/-- The `profits` list of the win-rate block: for each Buy (in log order) take
`matching_sells = sell_trades[sell_trades['timestamp'] > buy['timestamp']]`,
and if nonempty, `sell = matching_sells.iloc[0]` with
`profit = (sell['price'] - buy['price']) / buy['price']`. -/
def profitsCode (l : List Trade) : List ℚ :=
  (buyTrades l).filterMap fun b =>
    (((sellTrades l).filter fun s => b.timestamp < s.timestamp).head?).map
      fun s => (s.price - b.price) / b.price

/-- The win-rate computation, with the source's guard nesting:
no trades → 0; no Buys or no Sells → 0; empty `profits` → 0; otherwise
`len([p for p in profits if p > 0]) / len(profits) * 100`. -/
def winRateOf (l : List Trade) : ℚ :=
  if 0 < l.length then
    if 0 < (buyTrades l).length ∧ 0 < (sellTrades l).length then
      let profits := profitsCode l
      if 0 < profits.length then
        (((profits.filter fun x => 0 < x).length : ℚ) / profits.length) * 100
      else 0
    else 0
  else 0

/-- The `BacktestResult` bundle (all fields except the real-valued
`sharpe_ratio`, which `sharpeRatioOf` derives from the same equity curve;
`max_drawdown` is `Option`-valued because it is NaN on an empty return
series).  `trades` carries the list underlying the trades DataFrame. -/
structure BacktestResult where
  total_return : ℚ
  max_drawdown : Option ℚ
  win_rate : ℚ
  total_trades : ℕ
  final_balance : ℚ
  equity_curve : List ℚ
  trades : List Trade
deriving DecidableEq, Repr

/-- `SimpleBacktester(initial_balance, commission).run_backtest(data,
signal_func, position_size)` with `closes` the close column of `data` and
`signals` the series returned by `signal_func` (the engine reads only those
two columns).  Runs the loop over bars `1 .. len-1`, force-closes any open
position, then computes the metrics. -/
def run_backtest (initial_balance commission position_size : ℚ)
    (closes : List ℚ) (signals : List ℤ) : BacktestResult :=
  let st := runSteps commission position_size initial_balance closes signals (closes.length - 1)
  let stF := closeFinal commission (closes.getD (closes.length - 1) 0) st
  let rets := pctChange stF.equity
  { total_return := (stF.balance / initial_balance - 1) * 100
    max_drawdown := maxDrawdownOf rets
    win_rate := winRateOf stF.trades
    total_trades := stF.trades.length
    final_balance := stF.balance
    equity_curve := stF.equity
    trades := stF.trades }

/-- The per-bar return series of a result, `equity_series.pct_change().dropna()`. -/
def returnsOf (res : BacktestResult) : List ℚ :=
  pctChange res.equity_curve

/-- The trade (if any) executed at bar `i ≥ 1`: decided by the lagged signal
`signals[i-1]`, the execution price `closes[i]` and the state entering bar `i`. -/
def tradeAt (initial_balance commission position_size : ℚ)
    (closes : List ℚ) (signals : List ℤ) (i : ℕ) : Option Trade :=
  execTrade commission position_size i (closes.getD i 0) (signals.getD (i - 1) 0)
    (runSteps commission position_size initial_balance closes signals (i - 1))

/-! ## Spec-side definitions

Definitions in this section follow the specification's words (not the source);
each is compared with the corresponding source-derived definition in a
refinement theorem below. -/

/-- Spec-side max drawdown, following the spec's words: cumulative product of
`(1 + r_i)`, running maximum, pointwise drawdown, `abs(min) * 100`, and `0`
when the return series is empty. -/
def maxDrawdownSpec (r : List ℚ) : ℚ :=
  if r = [] then 0
  else
    match (drawdownOf r).min? with
    | some m => |m| * 100
    | none => 0

/-- Spec-side Buy/Sell pairing, following the spec's words: pair each Buy (in
timestamp order) with the earliest unmatched Sell whose timestamp is strictly
later; every matched Sell is consumed, so each Sell is matched to at most one
Buy. -/
def specPairs : List Trade → List Trade → List (Trade × Trade)
  | [], _ => []
  | b :: bs, sells =>
      match sells.dropWhile (fun s => s.timestamp ≤ b.timestamp) with
      | [] => []
      | s :: rest => (b, s) :: specPairs bs rest

/-- Spec-side per-pair profits: `(sell_price - buy_price) / buy_price` over
the spec-side pairing. -/
def specProfits (l : List Trade) : List ℚ :=
  (specPairs (buyTrades l) (sellTrades l)).map fun p => (p.2.price - p.1.price) / p.1.price

/-- Spec-side win rate: `(# pairs with profit > 0) / (# pairs) * 100`, and `0`
when there are zero completed pairs. -/
def winRateSpec (l : List Trade) : ℚ :=
  if specProfits l = [] then 0
  else (((specProfits l).filter fun x => 0 < x).length : ℚ) / (specProfits l).length * 100

/-! ## Structural predicates on trade logs -/

/-- Every trade in the list is a Buy. -/
def AllBuys (l : List Trade) : Prop := ∀ t ∈ l, t.side = Side.buy

/-- A trade log consisting of Buy/Sell pairs followed by a tail satisfying
`P`.  The logs `run_backtest` can produce are of this shape with the tail all
Buys (an open position's entry, or dead degenerate Buys that no Sell ever
follows). -/
inductive PairsThen (P : List Trade → Prop) : List Trade → Prop
  | base : ∀ l, P l → PairsThen P l
  | pair : ∀ (b s : Trade) (rest : List Trade), b.side = Side.buy → s.side = Side.sell →
      PairsThen P rest → PairsThen P (b :: s :: rest)

/-- Trade timestamps are strictly increasing along the log. -/
def TsIncreasing (l : List Trade) : Prop :=
  l.Pairwise fun a b => a.timestamp < b.timestamp

/-! ## Basic lemmas about one loop iteration -/

/-- When neither branch guard holds, the trade-execution part leaves the state
unchanged. -/
theorem applySignal_eq_of_none {c f : ℚ} {i : ℕ} {price : ℚ} {sig : ℤ} {st : BtState}
    (h1 : ¬(sig = 1 ∧ st.position = 0)) (h2 : ¬(sig = -1 ∧ 0 < st.position)) :
    applySignal c f i price sig st = st := by
  simp [applySignal, h1, h2]

/-- The trade-execution part never touches the equity list. -/
theorem applySignal_equity (c f : ℚ) (i : ℕ) (price : ℚ) (sig : ℤ) (st : BtState) :
    (applySignal c f i price sig st).equity = st.equity := by
  by_cases h1 : sig = 1 ∧ st.position = 0
  · simp [applySignal, h1]
  · by_cases h2 : sig = -1 ∧ 0 < st.position
    · simp [applySignal, h1, h2]
    · simp [applySignal, h1, h2]

/-- One iteration appends to the trade log exactly the trade `execTrade`
describes (none, a Buy, or a Sell). -/
theorem stepBar_trades (c f : ℚ) (i : ℕ) (price : ℚ) (sig : ℤ) (st : BtState) :
    (stepBar c f i price sig st).trades
      = st.trades ++ (execTrade c f i price sig st).toList := by
  by_cases h1 : sig = 1 ∧ st.position = 0
  · simp [stepBar, applySignal, execTrade, h1]
  · by_cases h2 : sig = -1 ∧ 0 < st.position
    · simp [stepBar, applySignal, execTrade, h1, h2]
    · simp [stepBar, applySignal, execTrade, h1, h2]

/-- One iteration appends exactly one equity point. -/
theorem stepBar_equity_length (c f : ℚ) (i : ℕ) (price : ℚ) (sig : ℤ) (st : BtState) :
    (stepBar c f i price sig st).equity.length = st.equity.length + 1 := by
  simp [stepBar, applySignal_equity]

/-- The equity curve after `k` iterations has `k + 1` points (one per bar). -/
theorem runSteps_equity_length (c f b : ℚ) (p : List ℚ) (sg : List ℤ) :
    ∀ k, (runSteps c f b p sg k).equity.length = k + 1
  | 0 => rfl
  | k + 1 => by
      rw [runSteps, stepBar_equity_length, runSteps_equity_length c f b p sg k]

/-- Forced liquidation appends no trade record. -/
theorem closeFinal_trades (c lp : ℚ) (st : BtState) :
    (closeFinal c lp st).trades = st.trades := by
  by_cases h : 0 < st.position
  · simp [closeFinal, h]
  · simp [closeFinal, h]

/-- Forced liquidation keeps the equity-curve length (it overwrites in place). -/
theorem closeFinal_equity_length (c lp : ℚ) (st : BtState) :
    (closeFinal c lp st).equity.length = st.equity.length := by
  by_cases h : 0 < st.position
  · simp [closeFinal, h]
  · simp [closeFinal, h]

/-- Overwriting the last entry of a nonempty list makes it the last entry. -/
theorem getLast?_set_last {α} (l : List α) (a : α) (h : l ≠ []) :
    (l.set (l.length - 1) a).getLast? = some a := by
  have hlen : 0 < l.length := List.length_pos.mpr h
  rw [List.getLast?_eq_getElem?, List.length_set]
  exact List.getElem?_set_self (by omega)

/-! ## C5: at most one open position, mismatched signals are no-ops -/

/-- **C5**: signals that do not match the current state produce no trade and
no cash/position change at that bar: a lagged Buy signal while
`position_quantity > 0`, a lagged Sell signal while flat, and a Hold signal
each leave `balance`, `position` and the trade log unchanged.  Moreover any
trade a bar appends is single, a Buy only from a flat state and a Sell only
from an open position — so positions never pyramid and no Buy is recorded
between a position's entry and its exit. -/
theorem C5_single_open_position (c f : ℚ) (i : ℕ) (price : ℚ) (sig : ℤ) (st : BtState) :
    (((sig = 1 ∧ 0 < st.position) ∨ (sig = -1 ∧ ¬0 < st.position) ∨ (sig ≠ 1 ∧ sig ≠ -1)) →
      (stepBar c f i price sig st).balance = st.balance ∧
      (stepBar c f i price sig st).position = st.position ∧
      (stepBar c f i price sig st).trades = st.trades) ∧
    ((stepBar c f i price sig st).trades = st.trades ∨
      ∃ t : Trade, (stepBar c f i price sig st).trades = st.trades ++ [t] ∧
        (t.side = Side.buy → st.position = 0) ∧ (t.side = Side.sell → 0 < st.position)) := by
  constructor
  · intro h
    have h1 : ¬(sig = 1 ∧ st.position = 0) := by
      rcases h with ⟨hs, hp⟩ | ⟨hs, hp⟩ | ⟨hs, hp⟩
      · exact fun ⟨_, h0⟩ => absurd h0 (ne_of_gt hp)
      · exact fun ⟨h0, _⟩ => by omega
      · exact fun ⟨h0, _⟩ => hs h0
    have h2 : ¬(sig = -1 ∧ 0 < st.position) := by
      rcases h with ⟨hs, hp⟩ | ⟨hs, hp⟩ | ⟨hs, hp⟩
      · exact fun ⟨h0, _⟩ => by omega
      · exact fun ⟨_, h0⟩ => hp h0
      · exact fun ⟨h0, _⟩ => hp h0
    have hA := @applySignal_eq_of_none c f i price sig st h1 h2
    refine ⟨?_, ?_, ?_⟩ <;> simp [stepBar, hA]
  · by_cases h1 : sig = 1 ∧ st.position = 0
    · right
      refine ⟨⟨i, Side.buy, price, st.balance * f / price,
          st.balance - (st.balance * f + st.balance * f * c)⟩, ?_, fun _ => h1.2, fun hs => ?_⟩
      · simp [stepBar, applySignal, h1]
      · simp at hs
    · by_cases h2 : sig = -1 ∧ 0 < st.position
      · right
        refine ⟨⟨i, Side.sell, price, st.position,
            st.balance + (st.position * price - st.position * price * c)⟩,
          ?_, fun hb => ?_, fun _ => h2.2⟩
        · simp [stepBar, applySignal, h1, h2]
        · simp at hb
      · left
        simp [stepBar, applySignal_eq_of_none h1 h2]

/-- Witness for C5 at a concrete no-op bar (Hold signal on the initial state). -/
theorem C5_witness :
    (stepBar 0 1 3 10 0 (initState 100)).balance = (initState 100).balance ∧
    (stepBar 0 1 3 10 0 (initState 100)).position = (initState 100).position ∧
    (stepBar 0 1 3 10 0 (initState 100)).trades = (initState 100).trades :=
  (C5_single_open_position 0 1 3 10 0 (initState 100)).1
    (Or.inr (Or.inr ⟨by decide, by decide⟩))

/-! ## C4: no look-ahead, next-bar execution -/

/-- Entries below the `take` boundary agree when the `take`s agree. -/
theorem getD_eq_of_take_eq {α} {l₁ l₂ : List α} {m j : ℕ}
    (h : l₁.take m = l₂.take m) (hj : j < m) (d : α) : l₁.getD j d = l₂.getD j d := by
  rw [List.getD_eq_getElem?_getD, List.getD_eq_getElem?_getD]
  have h1 : l₁[j]? = (l₁.take m)[j]? := by rw [List.getElem?_take, if_pos hj]
  have h2 : l₂[j]? = (l₂.take m)[j]? := by rw [List.getElem?_take, if_pos hj]
  rw [h1, h2, h]

/-- The loop state after `k` iterations reads only prices `1 .. k` and
signals `0 .. k-1`. -/
theorem runSteps_congr (c f b : ℚ) (p₁ p₂ : List ℚ) (s₁ s₂ : List ℤ) (k : ℕ)
    (hp : ∀ j, 1 ≤ j → j ≤ k → p₁.getD j 0 = p₂.getD j 0)
    (hs : ∀ j, j < k → s₁.getD j 0 = s₂.getD j 0) :
    runSteps c f b p₁ s₁ k = runSteps c f b p₂ s₂ k := by
  induction k with
  | zero => rfl
  | succ k ih =>
      rw [runSteps, runSteps, hp (k + 1) (by omega) le_rfl, hs k (by omega),
        ih (fun j h1 h2 => hp j h1 (by omega)) (fun j h1 => hs j (by omega))]

/-- **C4**: next-bar execution, no look-ahead.  For `i ≥ 1`: the trade the
loop appends at bar `i` is exactly `tradeAt … i`, a function of the lagged
signal `signals[i-1]`, the price `closes[i]` and the state entering bar `i`;
two runs whose prices agree up to bar `i` and whose signals agree up to bar
`i-1` execute the same trade at bar `i`, regardless of later prices or
signals; and the signal at the final bar is never executed — results agree
whenever the signals agree below the last bar. -/
theorem C4_no_lookahead (b c f : ℚ) (p₁ p₂ : List ℚ) (s₁ s₂ : List ℤ) (i : ℕ)
    (hi : 1 ≤ i) :
    ((runSteps c f b p₁ s₁ i).trades
        = (runSteps c f b p₁ s₁ (i - 1)).trades ++ (tradeAt b c f p₁ s₁ i).toList) ∧
    (p₁.take (i + 1) = p₂.take (i + 1) → s₁.take i = s₂.take i →
      tradeAt b c f p₁ s₁ i = tradeAt b c f p₂ s₂ i) ∧
    (∀ sg₂ : List ℤ, s₁.take (p₁.length - 1) = sg₂.take (p₁.length - 1) →
      run_backtest b c f p₁ s₁ = run_backtest b c f p₁ sg₂) := by
  refine ⟨?_, ?_, ?_⟩
  · obtain ⟨i', rfl⟩ : ∃ i', i = i' + 1 := ⟨i - 1, by omega⟩
    rw [runSteps]
    simp only [Nat.add_sub_cancel, tradeAt]
    exact stepBar_trades ..
  · intro hp hs
    have hst : runSteps c f b p₁ s₁ (i - 1) = runSteps c f b p₂ s₂ (i - 1) :=
      runSteps_congr c f b p₁ p₂ s₁ s₂ (i - 1)
        (fun j h1 h2 => getD_eq_of_take_eq hp (by omega) 0)
        (fun j h1 => getD_eq_of_take_eq hs (by omega) 0)
    rw [tradeAt, tradeAt, getD_eq_of_take_eq hp (by omega) 0,
      getD_eq_of_take_eq hs (by omega) 0, hst]
  · intro sg₂ h
    have hst : runSteps c f b p₁ s₁ (p₁.length - 1)
        = runSteps c f b p₁ sg₂ (p₁.length - 1) :=
      runSteps_congr c f b p₁ p₁ s₁ sg₂ (p₁.length - 1)
        (fun j _ _ => rfl) (fun j hj => getD_eq_of_take_eq h hj 0)
    simp only [run_backtest, hst]

/-- Witness for C4 on concrete runs: same trade at bar 1 despite different
later data, and an identical result when only the final-bar signal differs. -/
theorem C4_witness :
    tradeAt 100 0 1 [1, 2, 3] [1, -1, 0] 1 = tradeAt 100 0 1 [1, 2, 99] [1, 7, 9] 1 ∧
    run_backtest 100 0 1 [1, 2] [1, -1] = run_backtest 100 0 1 [1, 2] [1, 5] :=
  ⟨(C4_no_lookahead 100 0 1 [1, 2, 3] [1, 2, 99] [1, -1, 0] [1, 7, 9] 1 le_rfl).2.1
      (by decide) (by decide),
    (C4_no_lookahead 100 0 1 [1, 2] [1, 2] [1, -1] [1, -1] 1 le_rfl).2.2 [1, 5] (by decide)⟩

/-! ## C6 and C10: forced liquidation -/

/-- **C6**: if a position is still open after the last bar, it is closed at
the last bar's close with the Exit-rule commission formula
(`cash_balance += position * last_close - position * last_close * commission`)
and the final equity point is overwritten with the resulting cash balance, so
the final equity point equals `final_balance` with no mark-to-market residue. -/
theorem C6_forced_liquidation (b c f : ℚ) (closes : List ℚ) (signals : List ℤ)
    (hpos : 0 < (runSteps c f b closes signals (closes.length - 1)).position) :
    (run_backtest b c f closes signals).final_balance
        = (runSteps c f b closes signals (closes.length - 1)).balance
          + ((runSteps c f b closes signals (closes.length - 1)).position
                * closes.getD (closes.length - 1) 0
              - (runSteps c f b closes signals (closes.length - 1)).position
                * closes.getD (closes.length - 1) 0 * c) ∧
    (run_backtest b c f closes signals).equity_curve.getLast?
        = some (run_backtest b c f closes signals).final_balance := by
  have hne : (runSteps c f b closes signals (closes.length - 1)).equity ≠ [] := by
    have := runSteps_equity_length c f b closes signals (closes.length - 1)
    intro hnil
    rw [hnil] at this
    simp at this
  constructor
  · simp only [run_backtest, closeFinal, if_pos hpos]
  · simp only [run_backtest, closeFinal, if_pos hpos]
    exact getLast?_set_last _ _ hne

/-- Witness for C6: a two-bar run whose Buy position stays open to the end. -/
theorem C6_witness :
    (run_backtest 100 0 1 [1, 2] [1, 0]).final_balance
        = (runSteps 0 1 100 [1, 2] [1, 0] 1).balance
          + ((runSteps 0 1 100 [1, 2] [1, 0] 1).position * ([(1 : ℚ), 2].getD 1 0)
              - (runSteps 0 1 100 [1, 2] [1, 0] 1).position * ([(1 : ℚ), 2].getD 1 0) * 0) ∧
    (run_backtest 100 0 1 [1, 2] [1, 0]).equity_curve.getLast?
        = some (run_backtest 100 0 1 [1, 2] [1, 0]).final_balance :=
  C6_forced_liquidation 100 0 1 [1, 2] [1, 0]
    (by norm_num [runSteps, stepBar, applySignal, initState])

/-- **C10**: forced liquidation updates the cash balance and the final equity
point but appends no trade record: the returned trade log is exactly the
in-loop log, `total_trades` counts only in-loop trades, and (concretely) a run
whose position is force-closed returns a log ending in a Buy even though it
ends flat with `final_balance` all cash. -/
theorem C10_forced_close_not_logged (b c f : ℚ) (closes : List ℚ) (signals : List ℤ) :
    ((run_backtest b c f closes signals).trades
        = (runSteps c f b closes signals (closes.length - 1)).trades ∧
      (run_backtest b c f closes signals).total_trades
        = (run_backtest b c f closes signals).trades.length) ∧
    ((run_backtest 100 0 1 [1, 2] [1, 0]).trades = [⟨1, Side.buy, 2, 50, 0⟩] ∧
      0 < (runSteps 0 1 100 [1, 2] [1, 0] 1).position ∧
      (run_backtest 100 0 1 [1, 2] [1, 0]).final_balance = 100) := by
  refine ⟨⟨?_, ?_⟩,
    by norm_num [run_backtest, runSteps, stepBar, applySignal, initState, closeFinal]⟩
  · simp only [run_backtest]
    exact closeFinal_trades ..
  · simp only [run_backtest, closeFinal_trades]

/-! ## C2 and C3: the source performs no input or price validation -/

/-- **C2 counterexample**: `initial_balance = -100` violates the
`initial_balance > 0` precondition, yet no `InvalidInput` error exists in the
source: the simulation runs (a Buy is executed at bar 1) and a complete
`BacktestResult` is produced. -/
theorem C2_counterexample :
    (-100 : ℚ) ≤ 0 ∧
    (run_backtest (-100) 0 1 [1, 1] [1, 0]).total_trades = 1 ∧
    (run_backtest (-100) 0 1 [1, 1] [1, 0]).equity_curve = [-100, 0] := by
  norm_num [run_backtest, runSteps, stepBar, applySignal, initState, closeFinal]

/-- **C2 (amended)**: `run_backtest` performs no precondition validation: for
every input with a nonempty price series — short series, out-of-range
commission or position-size fraction, negative initial balance included — the
simulation runs and a complete `BacktestResult` is produced, with one equity
point per input bar and `total_trades` matching the trade log.  (The
`initial_balance ≠ 0` hypothesis records the one configuration the Python
does reject, with a `ZeroDivisionError` from `balance / self.initial_balance`
in the metrics, not with `InvalidInput`.) -/
theorem C2_no_validation (b c f : ℚ) (closes : List ℚ) (signals : List ℤ)
    (hne : closes ≠ []) (hb : b ≠ 0) :
    (run_backtest b c f closes signals).equity_curve.length = closes.length ∧
    (run_backtest b c f closes signals).total_trades
      = (run_backtest b c f closes signals).trades.length := by
  refine ⟨?_, ?_⟩
  · simp only [run_backtest]
    rw [closeFinal_equity_length, runSteps_equity_length]
    have : 0 < closes.length := List.length_pos.mpr hne
    omega
  · simp only [run_backtest]

/-- Witness for C2 at an input violating every precondition at once
(`initial_balance < 0`, `commission_rate = 2 ∉ [0,1)`,
`position_size_fraction = 7 ∉ (0,1]`). -/
theorem C2_witness :
    (run_backtest (-5) 2 7 [1, 1, 1] [0, 0, 0]).equity_curve.length = [(1 : ℚ), 1, 1].length ∧
    (run_backtest (-5) 2 7 [1, 1, 1] [0, 0, 0]).total_trades
      = (run_backtest (-5) 2 7 [1, 1, 1] [0, 0, 0]).trades.length :=
  C2_no_validation (-5) 2 7 [1, 1, 1] [0, 0, 0] (by simp) (by norm_num)

/-- **C3 counterexample**: a Buy whose execution price is negative is executed
anyway: no `InvalidPriceData` error exists in the source, the quantity is
computed by dividing by the negative price, and a complete `BacktestResult`
is returned rather than the run aborting at the offending bar. -/
theorem C3_counterexample :
    ((-1 : ℚ) < 0) ∧
    (run_backtest 100 0 1 [1, -1] [1, 0]).total_trades = 1 ∧
    (run_backtest 100 0 1 [1, -1] [1, 0]).trades = [⟨1, Side.buy, -1, -100, 0⟩] := by
  norm_num [run_backtest, runSteps, stepBar, applySignal, initState, closeFinal]

/-- **C3 (amended)**: `run_backtest` performs no price validation: a Buy at a
negative execution price executes, computing `position_quantity` by dividing
`trade_amount` by that price (a negative quantity), and the run completes
with a full `BacktestResult`. -/
theorem C3_no_price_validation (b c f p₁ p₂ : ℚ)
    (hp : p₂ < 0) (hb : 0 < b) (hf : 0 < f) :
    (run_backtest b c f [p₁, p₂] [1, 0]).trades
        = [⟨1, Side.buy, p₂, b * f / p₂, b - (b * f + b * f * c)⟩] ∧
    b * f / p₂ < 0 ∧
    (run_backtest b c f [p₁, p₂] [1, 0]).total_trades = 1 := by
  have hq : b * f / p₂ < 0 := div_neg_of_pos_of_neg (mul_pos hb hf) hp
  have hq' : ¬(0 < b * f / p₂) := not_lt.mpr hq.le
  refine ⟨?_, hq, ?_⟩ <;>
    simp [run_backtest, runSteps, stepBar, applySignal, initState, closeFinal, hq']

/-- Witness for C3: the Buy at price `-2` with balance `200`. -/
theorem C3_witness :
    (run_backtest 200 0 1 [1, -2] [1, 0]).trades
        = [⟨1, Side.buy, -2, 200 * 1 / (-2), 200 - (200 * 1 + 200 * 1 * 0)⟩] ∧
    (200 : ℚ) * 1 / (-2) < 0 ∧
    (run_backtest 200 0 1 [1, -2] [1, 0]).total_trades = 1 :=
  C3_no_price_validation 200 0 1 1 (-2) (by norm_num) (by norm_num) (by norm_num)

/-! ## C1: balance non-negativity -/

/-- One iteration preserves non-negativity of `balance`, `position` and all
recorded trade balances, provided the execution price is positive and the
total Buy deduction fraction `position_size * (1 + commission)` is at most 1. -/
theorem stepBar_preserves_nonneg {c f : ℚ} (hc0 : 0 ≤ c) (hc1 : c < 1) (hf0 : 0 < f)
    (hfc : f * (1 + c) ≤ 1) {price : ℚ} (hprice : 0 < price) (i : ℕ) (sig : ℤ)
    {st : BtState}
    (h : 0 ≤ st.balance ∧ 0 ≤ st.position ∧ ∀ t ∈ st.trades, 0 ≤ t.balance) :
    0 ≤ (stepBar c f i price sig st).balance ∧
    0 ≤ (stepBar c f i price sig st).position ∧
    ∀ t ∈ (stepBar c f i price sig st).trades, 0 ≤ t.balance := by
  obtain ⟨hb, hpos, ht⟩ := h
  by_cases h1 : sig = 1 ∧ st.position = 0
  · have hbal' : 0 ≤ st.balance - (st.balance * f + st.balance * f * c) := by
      nlinarith [mul_le_mul_of_nonneg_left hfc hb]
    have hpos' : 0 ≤ st.balance * f / price :=
      div_nonneg (mul_nonneg hb hf0.le) hprice.le
    refine ⟨?_, ?_, ?_⟩ <;> simp [stepBar, applySignal, h1]
    · linarith [hbal']
    · exact hpos'
    · rintro t (htm | rfl)
      · exact ht t htm
      · exact hbal'
  · by_cases h2 : sig = -1 ∧ 0 < st.position
    · have hbal' : 0 ≤ st.balance + (st.position * price - st.position * price * c) := by
        nlinarith [mul_pos h2.2 hprice]
      refine ⟨?_, ?_, ?_⟩ <;> simp [stepBar, applySignal, h1, h2]
      · linarith [hbal']
      · rintro t (htm | rfl)
        · exact ht t htm
        · exact hbal'
    · have hA := @applySignal_eq_of_none c f i price sig st h1 h2
      refine ⟨?_, ?_, ?_⟩ <;> simp [stepBar, hA]
      · exact hb
      · exact hpos
      · exact ht

/-- **C1 counterexample**: with `position_size_fraction = 1` (allowed by the
claim) and `commission_rate = 1/1000` (allowed by the claim), positive prices
and a positive initial balance, the Buy at bar 1 deducts
`trade_amount + commission` and drives the cash balance to `-10 < 0`; the
recorded Buy trade carries the negative balance. -/
theorem C1_counterexample :
    (0 < (1 : ℚ) ∧ (1 : ℚ) ≤ 1 ∧ 0 ≤ (1 / 1000 : ℚ) ∧ (1 / 1000 : ℚ) < 1 ∧
      (0 : ℚ) < 10000 ∧ ∀ x ∈ [(1 : ℚ), 1], 0 < x) ∧
    (runSteps (1 / 1000) 1 10000 [1, 1] [1, 0] 1).balance < 0 ∧
    ∃ t ∈ (run_backtest 10000 (1 / 1000) 1 [1, 1] [1, 0]).trades, t.balance < 0 := by
  refine ⟨by norm_num, ?_, ?_⟩
  · norm_num [runSteps, stepBar, applySignal, initState]
  · refine ⟨⟨1, Side.buy, 1, 10000, -10⟩, ?_, by norm_num⟩
    norm_num [run_backtest, runSteps, stepBar, applySignal, initState, closeFinal]

/-- **C1 (amended)**: with positive prices, `position_size_fraction ∈ (0,1]`,
`commission_rate ∈ [0,1)` and additionally
`position_size_fraction * (1 + commission_rate) ≤ 1` (the condition the Buy
deduction `trade_amount + trade_amount * commission` forces), the cash
balance is never negative at any point of the simulation: after every bar,
in every recorded trade, and in the final balance. -/
theorem C1_balance_nonneg (b c f : ℚ) (closes : List ℚ) (signals : List ℤ)
    (hc0 : 0 ≤ c) (hc1 : c < 1) (hf0 : 0 < f) (hf1 : f ≤ 1) (hfc : f * (1 + c) ≤ 1)
    (hb : 0 ≤ b) (hp : ∀ x ∈ closes, 0 < x) :
    (∀ k ≤ closes.length - 1,
      0 ≤ (runSteps c f b closes signals k).balance ∧
      ∀ t ∈ (runSteps c f b closes signals k).trades, 0 ≤ t.balance) ∧
    0 ≤ (run_backtest b c f closes signals).final_balance := by
  have inv : ∀ k, k ≤ closes.length - 1 →
      0 ≤ (runSteps c f b closes signals k).balance ∧
      0 ≤ (runSteps c f b closes signals k).position ∧
      ∀ t ∈ (runSteps c f b closes signals k).trades, 0 ≤ t.balance := by
    intro k
    induction k with
    | zero => exact fun _ => ⟨hb, le_refl 0, by simp [runSteps, initState]⟩
    | succ k ih =>
        intro hk
        have hk' : k ≤ closes.length - 1 := by omega
        have hlt : k + 1 < closes.length := by omega
        have hprice : 0 < closes.getD (k + 1) 0 := by
          rw [List.getD_eq_getElem?_getD, List.getElem?_eq_getElem hlt]
          exact hp _ (List.getElem_mem ..)
        rw [runSteps]
        exact stepBar_preserves_nonneg hc0 hc1 hf0 hfc hprice (k + 1)
          (signals.getD k 0) (ih hk')
  refine ⟨fun k hk => ⟨(inv k hk).1, (inv k hk).2.2⟩, ?_⟩
  · obtain ⟨hbal, hpos, -⟩ := inv (closes.length - 1) le_rfl
    simp only [run_backtest]
    by_cases hopen : 0 < (runSteps c f b closes signals (closes.length - 1)).position
    · have hne : closes ≠ [] := by
        intro hnil
        rw [hnil] at hopen
        simp [runSteps, initState] at hopen
      have hlt : closes.length - 1 < closes.length := by
        have : 0 < closes.length := List.length_pos.mpr hne
        omega
      have hprice : 0 < closes.getD (closes.length - 1) 0 := by
        rw [List.getD_eq_getElem?_getD, List.getElem?_eq_getElem hlt]
        exact hp _ (List.getElem_mem ..)
      simp only [closeFinal, if_pos hopen]
      nlinarith [mul_pos hopen hprice]
    · simp only [closeFinal, if_neg hopen]
      exact hbal

/-- Witness for C1 on a concrete valid run (`f = 1/2`, `c = 1/2`,
`f * (1 + c) = 3/4 ≤ 1`) with a Buy and a Sell. -/
theorem C1_witness :
    (∀ k ≤ [(1 : ℚ), 1, 2].length - 1,
      0 ≤ (runSteps (1 / 2) (1 / 2) 100 [1, 1, 2] [1, -1, 0] k).balance ∧
      ∀ t ∈ (runSteps (1 / 2) (1 / 2) 100 [1, 1, 2] [1, -1, 0] k).trades, 0 ≤ t.balance) ∧
    0 ≤ (run_backtest 100 (1 / 2) (1 / 2) [1, 1, 2] [1, -1, 0]).final_balance :=
  C1_balance_nonneg 100 (1 / 2) (1 / 2) [1, 1, 2] [1, -1, 0]
    (by norm_num) (by norm_num) (by norm_num) (by norm_num) (by norm_num)
    (by norm_num) (by norm_num)

/-! ## C7: max drawdown -/

theorem cumProdAux_length (acc : ℚ) (l : List ℚ) :
    (cumProdAux acc l).length = l.length := by
  induction l generalizing acc with
  | nil => rfl
  | cons x xs ih => simp [cumProdAux, ih]

theorem runningMaxAux_length (m : ℚ) (l : List ℚ) :
    (runningMaxAux m l).length = l.length := by
  induction l generalizing m with
  | nil => rfl
  | cons x xs ih => simp [runningMaxAux, ih]

theorem runningMaxOf_length (l : List ℚ) : (runningMaxOf l).length = l.length := by
  cases l with
  | nil => rfl
  | cons x xs => simp [runningMaxOf, runningMaxAux_length]

theorem drawdownOf_length (r : List ℚ) : (drawdownOf r).length = r.length := by
  simp [drawdownOf, cumulativeOf, cumProdAux_length, runningMaxOf_length]

/-- On a nonempty return series the source's `abs(drawdown.min()) * 100` is a
real value and coincides with the spec formula. -/
theorem maxDrawdownOf_eq_spec {r : List ℚ} (h : r ≠ []) :
    maxDrawdownOf r = some (maxDrawdownSpec r) := by
  have hdd : drawdownOf r ≠ [] := by
    intro hnil
    have := drawdownOf_length r
    rw [hnil] at this
    exact h (List.length_eq_zero.mp this.symm)
  obtain ⟨m, hm⟩ : ∃ m, (drawdownOf r).min? = some m := by
    cases hmin : (drawdownOf r).min? with
    | none => exact absurd (List.min?_eq_none_iff.mp hmin) hdd
    | some m => exact ⟨m, rfl⟩
  rw [maxDrawdownOf, hm, maxDrawdownSpec, if_neg h, hm]
  rfl

/-- **C7 (amended)**: the `max_drawdown` metric of a result is
`abs(min((cumulative - running_max) / running_max)) * 100` over the cumulative
product of `(1 + r_i)` and its running maximum; on a nonempty return series
this agrees with the spec-side formula, but on an empty return series the
source produces NaN (the minimum of an empty series), not 0. -/
theorem C7_max_drawdown (b c f : ℚ) (closes : List ℚ) (signals : List ℤ) :
    (run_backtest b c f closes signals).max_drawdown
        = maxDrawdownOf (returnsOf (run_backtest b c f closes signals)) ∧
    (returnsOf (run_backtest b c f closes signals) ≠ [] →
      (run_backtest b c f closes signals).max_drawdown
        = some (maxDrawdownSpec (returnsOf (run_backtest b c f closes signals)))) := by
  refine ⟨rfl, fun h => ?_⟩
  exact maxDrawdownOf_eq_spec h

/-- **C7 counterexample**: a one-bar input (accepted, since the source
validates nothing) has an empty return series, and `max_drawdown` is then
NaN — `abs` of the NaN minimum of an empty series — not the 0 the claim
requires. -/
theorem C7_counterexample :
    returnsOf (run_backtest 100 0 1 [5] [0]) = [] ∧
    (run_backtest 100 0 1 [5] [0]).max_drawdown = none ∧
    (run_backtest 100 0 1 [5] [0]).max_drawdown ≠ some 0 := by
  refine ⟨?_, ?_, ?_⟩ <;>
    simp [run_backtest, runSteps, initState, closeFinal, returnsOf, pctChange,
      maxDrawdownOf, drawdownOf, cumulativeOf, cumProdAux, runningMaxOf]

/-- Witness for C7 on a two-bar run with a nonempty return series. -/
theorem C7_witness :
    (run_backtest 100 0 1 [4, 5] [0, 0]).max_drawdown
        = some (maxDrawdownSpec (returnsOf (run_backtest 100 0 1 [4, 5] [0, 0]))) :=
  (C7_max_drawdown 100 0 1 [4, 5] [0, 0]).2
    (by norm_num [run_backtest, runSteps, stepBar, applySignal, initState, closeFinal,
      returnsOf, pctChange])

/-! ## C8: Sharpe ratio -/

/-- Every entry of an all-Hold signal series reads as 0 (in or out of range). -/
theorem getD_replicate_zero (n k : ℕ) : (List.replicate n (0 : ℤ)).getD k 0 = 0 := by
  rw [List.getD_eq_getElem?_getD, List.getElem?_replicate]
  split <;> rfl

/-- With an all-Hold signal series the simulation never trades: the state
after any number of bars is the initial balance, a flat position, an empty
log, and a constant equity curve. -/
theorem runSteps_hold (c f b : ℚ) (closes : List ℚ) (n : ℕ) :
    ∀ k, runSteps c f b closes (List.replicate n 0) k
        = ⟨b, 0, [], List.replicate (k + 1) b⟩
  | 0 => by simp [runSteps, initState, List.replicate]
  | k + 1 => by
      rw [runSteps, runSteps_hold c f b closes n k, getD_replicate_zero]
      simp [stepBar, applySignal, ← List.replicate_succ']

/-- Per-bar returns of a constant (nonzero) equity curve are all zero. -/
theorem pctChange_replicate (m : ℕ) (b : ℚ) (hb : b ≠ 0) :
    pctChange (List.replicate m b) = List.replicate (m - 1) 0 := by
  simp [pctChange, List.tail_replicate, List.zip_replicate, div_self hb]

/-- The sample variance of an all-zero return series is zero. -/
theorem sampleVar_replicate_zero (k : ℕ) : sampleVar (List.replicate k (0 : ℚ)) = 0 := by
  simp [sampleVar, sampleMean]

/-- Zero sample variance forces the degenerate Sharpe branch. -/
theorem sharpeRatioOf_eq_zero_of_var_zero {r : List ℚ} (h : sampleVar r = 0) :
    sharpeRatioOf r = 0 := by
  rw [sharpeRatioOf, if_neg]
  rintro ⟨-, h2⟩
  rw [h] at h2
  simp at h2

/-- **C8**: the Sharpe ratio is `mean(r) / stdev(r) * sqrt 252` over the
per-bar equity return series whenever that series is nonempty with positive
sample standard deviation, and exactly 0 when the series is empty or its
sample standard deviation is 0; in particular a constant-price run with
all-Hold signals (hence no trades) yields Sharpe = 0. -/
theorem C8_sharpe (b c f : ℚ) (closes : List ℚ) (signals : List ℤ) :
    (0 < (returnsOf (run_backtest b c f closes signals)).length →
      0 < Real.sqrt (sampleVar (returnsOf (run_backtest b c f closes signals))) →
      sharpeRatioOf (returnsOf (run_backtest b c f closes signals))
        = (sampleMean (returnsOf (run_backtest b c f closes signals)) : ℝ)
            / Real.sqrt (sampleVar (returnsOf (run_backtest b c f closes signals)))
            * Real.sqrt 252) ∧
    ((returnsOf (run_backtest b c f closes signals)).length = 0 ∨
        Real.sqrt (sampleVar (returnsOf (run_backtest b c f closes signals))) = 0 →
      sharpeRatioOf (returnsOf (run_backtest b c f closes signals)) = 0) ∧
    (∀ (n : ℕ) (p : ℚ), 0 < p → 0 < b → closes = List.replicate n p →
      signals = List.replicate n 0 →
      sharpeRatioOf (returnsOf (run_backtest b c f closes signals)) = 0) := by
  refine ⟨fun h1 h2 => ?_, fun h => ?_, fun n p hp hb hcl hsg => ?_⟩
  · rw [sharpeRatioOf, if_pos ⟨h1, h2⟩]
  · rw [sharpeRatioOf, if_neg]
    rintro ⟨h1, h2⟩
    rcases h with h | h
    · omega
    · exact absurd h (ne_of_gt h2)
  · subst hcl hsg
    have hrun := runSteps_hold c f b (List.replicate n p) n ((List.replicate n p).length - 1)
    have hret : returnsOf (run_backtest b c f (List.replicate n p) (List.replicate n 0))
        = List.replicate ((List.replicate n p).length - 1 + 1 - 1) 0 := by
      simp only [run_backtest, returnsOf, hrun, closeFinal]
      rw [if_neg (by norm_num)]
      exact pctChange_replicate _ b (ne_of_gt hb)
    rw [hret]
    exact sharpeRatioOf_eq_zero_of_var_zero (sampleVar_replicate_zero _)

/-- Witness for C8: a three-bar constant-price all-Hold run has Sharpe 0. -/
theorem C8_witness :
    sharpeRatioOf (returnsOf (run_backtest 100 0 1 (List.replicate 3 5) (List.replicate 3 0))) = 0 :=
  (C8_sharpe 100 0 1 (List.replicate 3 5) (List.replicate 3 0)).2.2 3 5
    (by norm_num) (by norm_num) rfl rfl

/-! ## C9: win rate — trade-log shape lemmas -/

theorem pairsThen_mono {P Q : List Trade → Prop} (h : ∀ l, P l → Q l) :
    ∀ {l : List Trade}, PairsThen P l → PairsThen Q l := by
  intro l hl
  induction hl with
  | base l hP => exact PairsThen.base l (h l hP)
  | pair b s rest hb hs hrest ih => exact PairsThen.pair b s rest hb hs ih

/-- Appending a Buy to a fully-paired log yields pairs plus one open Buy. -/
theorem pairs_append_buy {l : List Trade} (h : PairsThen (· = []) l) {t : Trade}
    (ht : t.side = Side.buy) :
    PairsThen (fun l' => ∃ u, l' = [u] ∧ u.side = Side.buy) (l ++ [t]) := by
  induction h with
  | base l hP =>
      subst hP
      exact PairsThen.base [t] ⟨t, rfl, ht⟩
  | pair b s rest hb hs hrest ih =>
      rw [List.cons_append, List.cons_append]
      exact PairsThen.pair b s (rest ++ [t]) hb hs ih

/-- Appending a Sell to pairs-plus-one-open-Buy closes the last pair. -/
theorem pairsB_append_sell {l : List Trade}
    (h : PairsThen (fun l' => ∃ u, l' = [u] ∧ u.side = Side.buy) l) {t : Trade}
    (ht : t.side = Side.sell) : PairsThen (· = []) (l ++ [t]) := by
  induction h with
  | base l hP =>
      obtain ⟨u, rfl, hu⟩ := hP
      exact PairsThen.pair u t [] hu ht (PairsThen.base [] rfl)
  | pair b s rest hb hs hrest ih =>
      rw [List.cons_append, List.cons_append]
      exact PairsThen.pair b s (rest ++ [t]) hb hs ih

/-- Appending a Buy to a pairs-then-Buys log keeps that shape. -/
theorem gen_append_buy {l : List Trade} (h : PairsThen AllBuys l) {t : Trade}
    (ht : t.side = Side.buy) : PairsThen AllBuys (l ++ [t]) := by
  induction h with
  | base l hP =>
      refine PairsThen.base (l ++ [t]) ?_
      intro u hu
      rcases List.mem_append.mp hu with hu | hu
      · exact hP u hu
      · rw [List.mem_singleton.mp hu]; exact ht
  | pair b s rest hb hs hrest ih =>
      rw [List.cons_append, List.cons_append]
      exact PairsThen.pair b s (rest ++ [t]) hb hs ih

theorem tsIncreasing_append {l : List Trade} {t : Trade} (h : TsIncreasing l)
    (hall : ∀ a ∈ l, a.timestamp < t.timestamp) : TsIncreasing (l ++ [t]) := by
  rw [TsIncreasing, List.pairwise_append]
  refine ⟨h, List.pairwise_singleton .., fun a ha u hu => ?_⟩
  rw [List.mem_singleton.mp hu]
  exact hall a ha

/-! ## C9: code pairing equals spec pairing on engine-shaped logs -/

theorem specPairs_nil_right : ∀ bs : List Trade, specPairs bs [] = []
  | [] => rfl
  | _ :: _ => rfl

theorem sellTrades_eq_nil {l : List Trade} (h : AllBuys l) : sellTrades l = [] := by
  rw [sellTrades, List.filter_eq_nil_iff]
  intro t ht
  simp [h t ht]

theorem profitsCode_of_no_sells {l : List Trade} (h : sellTrades l = []) :
    profitsCode l = [] := by
  rw [profitsCode, h]
  exact List.filterMap_eq_nil_iff.mpr fun a _ => rfl

theorem profitsCode_of_no_buys {l : List Trade} (h : buyTrades l = []) :
    profitsCode l = [] := by
  rw [profitsCode, h]
  rfl

/-- Code-side pairing, one completed pair at the head of the log: the head Buy
matches the head Sell, and no later Buy matches it again. -/
theorem profitsCode_pair {b s : Trade} {rest : List Trade}
    (hb : b.side = Side.buy) (hs : s.side = Side.sell)
    (hbs : b.timestamp < s.timestamp)
    (hrest : ∀ t ∈ rest, s.timestamp < t.timestamp) :
    profitsCode (b :: s :: rest)
      = ((s.price - b.price) / b.price) :: profitsCode rest := by
  have hbt : buyTrades (b :: s :: rest) = b :: buyTrades rest := by
    simp [buyTrades, List.filter_cons, hb, hs]
  have hst : sellTrades (b :: s :: rest) = s :: sellTrades rest := by
    simp [sellTrades, List.filter_cons, hb, hs]
  have htail : List.filterMap
      (fun b' => (((s :: sellTrades rest).filter fun s' => b'.timestamp < s'.timestamp).head?).map
        fun s' => (s'.price - b'.price) / b'.price) (buyTrades rest)
      = profitsCode rest := by
    rw [profitsCode]
    refine List.filterMap_congr fun b' hb' => ?_
    have hmem : b' ∈ rest := (List.mem_filter.mp hb').1
    have hnot : ¬(b'.timestamp < s.timestamp) := not_lt.mpr (hrest b' hmem).le
    rw [List.filter_cons_of_neg (by simpa using hnot)]
  rw [profitsCode, hbt, hst]
  have hfb : (((s :: sellTrades rest).filter fun s' => b.timestamp < s'.timestamp).head?).map
      (fun s' => (s'.price - b.price) / b.price) = some ((s.price - b.price) / b.price) := by
    simp [List.filter_cons, hbs]
  simp only [List.filterMap_cons, hfb, htail]

/-- Spec-side pairing, one completed pair at the head of the log. -/
theorem specProfits_pair {b s : Trade} {rest : List Trade}
    (hb : b.side = Side.buy) (hs : s.side = Side.sell)
    (hbs : b.timestamp < s.timestamp) :
    specProfits (b :: s :: rest)
      = ((s.price - b.price) / b.price) :: specProfits rest := by
  have hbt : buyTrades (b :: s :: rest) = b :: buyTrades rest := by
    simp [buyTrades, List.filter_cons, hb, hs]
  have hst : sellTrades (b :: s :: rest) = s :: sellTrades rest := by
    simp [sellTrades, List.filter_cons, hb, hs]
  rw [specProfits, hbt, hst, specPairs]
  rw [List.dropWhile_cons, if_neg (by simpa using not_le.mpr hbs)]
  rw [specProfits]
  rfl

/-- On a pairs-then-Buys log with strictly increasing timestamps — the shape
every engine run produces — the source's rescanning Buy/Sell pairing computes
exactly the spec's consume-each-Sell-once pairing. -/
theorem profitsCode_eq_specProfits {l : List Trade} (hts : TsIncreasing l)
    (hshape : PairsThen AllBuys l) : profitsCode l = specProfits l := by
  induction hshape with
  | base l hP =>
      rw [profitsCode_of_no_sells (sellTrades_eq_nil hP), specProfits,
        sellTrades_eq_nil hP, specPairs_nil_right]
      rfl
  | pair b s rest hb hs hrest ih =>
      have h1 : b.timestamp < s.timestamp :=
        (List.pairwise_cons.mp hts).1 s (by simp)
      have h2 : ∀ t ∈ rest, s.timestamp < t.timestamp :=
        fun t ht => (List.pairwise_cons.mp (List.pairwise_cons.mp hts).2).1 t ht
      have h3 : TsIncreasing rest :=
        (List.pairwise_cons.mp (List.pairwise_cons.mp hts).2).2
      rw [profitsCode_pair hb hs h1 h2, specProfits_pair hb hs h1, ih h3]

/-- When code-side and spec-side profit lists agree, the full win-rate
computations (including all the degenerate-case guards) agree. -/
theorem winRateOf_eq_spec {l : List Trade} (h : profitsCode l = specProfits l) :
    winRateOf l = winRateSpec l := by
  rw [winRateOf, winRateSpec, ← h]
  by_cases hl : 0 < l.length
  · rw [if_pos hl]
    by_cases hbs : 0 < (buyTrades l).length ∧ 0 < (sellTrades l).length
    · rw [if_pos hbs]
      by_cases hp : 0 < (profitsCode l).length
      · rw [if_pos hp, if_neg (by simpa [← List.length_pos] using hp)]
      · rw [if_neg hp, if_pos (by simpa [← List.length_eq_zero] using hp)]
    · have hnil : profitsCode l = [] := by
        rcases not_and_or.mp hbs with hb | hs
        · exact profitsCode_of_no_buys (by simpa [← List.length_eq_zero] using hb)
        · exact profitsCode_of_no_sells (by simpa [← List.length_eq_zero] using hs)
      rw [if_neg hbs, if_pos hnil]
  · have hnil : l = [] := by simpa [← List.length_eq_zero] using hl
    rw [if_neg hl, if_pos]
    rw [hnil]
    exact profitsCode_of_no_buys rfl


/-! ## C9: the shape invariant of the simulation loop -/

/-- Explicit form of a Buy iteration. -/
theorem stepBar_buy {c f : ℚ} {i : ℕ} {price : ℚ} {sig : ℤ} {st : BtState}
    (h1 : sig = 1 ∧ st.position = 0) :
    stepBar c f i price sig st
      = ⟨st.balance - (st.balance * f + st.balance * f * c),
          st.balance * f / price,
          st.trades ++ [⟨i, Side.buy, price, st.balance * f / price,
            st.balance - (st.balance * f + st.balance * f * c)⟩],
          st.equity ++ [st.balance - (st.balance * f + st.balance * f * c)
            + (if 0 < st.balance * f / price then st.balance * f / price * price else 0)]⟩ := by
  simp [stepBar, applySignal, h1]

/-- Explicit form of a Sell iteration. -/
theorem stepBar_sell {c f : ℚ} {i : ℕ} {price : ℚ} {sig : ℤ} {st : BtState}
    (h1 : ¬(sig = 1 ∧ st.position = 0)) (h2 : sig = -1 ∧ 0 < st.position) :
    stepBar c f i price sig st
      = ⟨st.balance + (st.position * price - st.position * price * c), 0,
          st.trades ++ [⟨i, Side.sell, price, st.position,
            st.balance + (st.position * price - st.position * price * c)⟩],
          st.equity ++ [st.balance + (st.position * price - st.position * price * c)]⟩ := by
  simp [stepBar, applySignal, h1, h2]

/-- Explicit form of a no-trade iteration. -/
theorem stepBar_noop {c f : ℚ} {i : ℕ} {price : ℚ} {sig : ℤ} {st : BtState}
    (h1 : ¬(sig = 1 ∧ st.position = 0)) (h2 : ¬(sig = -1 ∧ 0 < st.position)) :
    stepBar c f i price sig st
      = { st with equity := st.equity
            ++ [st.balance + (if 0 < st.position then st.position * price else 0)] } := by
  rw [stepBar, applySignal_eq_of_none h1 h2]

/-- One iteration preserves the trade-log shape invariant: timestamps strictly
increase and stay below the bar counter, and the state is in one of five
modes — flat with positive cash and a fully paired log; holding a position
with pairs plus one open Buy; flat with zero cash (pairs then degenerate
Buys, a state no Sell can ever follow); flat with negative cash and a fully
paired log; or a frozen negative position with pairs plus one open Buy. -/
theorem stepBar_shape_inv {c f : ℚ} (hf : 0 < f) {price : ℚ} (hpr : price ≠ 0)
    {i : ℕ} (sig : ℤ) {st : BtState}
    (hts : TsIncreasing st.trades) (hbd : ∀ t ∈ st.trades, t.timestamp < i)
    (hmode :
      (st.position = 0 ∧ 0 < st.balance ∧ PairsThen (· = []) st.trades)
      ∨ (0 < st.position ∧ PairsThen (fun l => ∃ u, l = [u] ∧ u.side = Side.buy) st.trades)
      ∨ (st.position = 0 ∧ st.balance = 0 ∧ PairsThen AllBuys st.trades)
      ∨ (st.position = 0 ∧ st.balance < 0 ∧ PairsThen (· = []) st.trades)
      ∨ (st.position < 0 ∧ PairsThen (fun l => ∃ u, l = [u] ∧ u.side = Side.buy) st.trades)) :
    TsIncreasing (stepBar c f i price sig st).trades ∧
    (∀ t ∈ (stepBar c f i price sig st).trades, t.timestamp < i + 1) ∧
    ((stepBar c f i price sig st).position = 0 ∧ 0 < (stepBar c f i price sig st).balance ∧
        PairsThen (· = []) (stepBar c f i price sig st).trades
      ∨ 0 < (stepBar c f i price sig st).position ∧
        PairsThen (fun l => ∃ u, l = [u] ∧ u.side = Side.buy) (stepBar c f i price sig st).trades
      ∨ (stepBar c f i price sig st).position = 0 ∧ (stepBar c f i price sig st).balance = 0 ∧
        PairsThen AllBuys (stepBar c f i price sig st).trades
      ∨ (stepBar c f i price sig st).position = 0 ∧ (stepBar c f i price sig st).balance < 0 ∧
        PairsThen (· = []) (stepBar c f i price sig st).trades
      ∨ (stepBar c f i price sig st).position < 0 ∧
        PairsThen (fun l => ∃ u, l = [u] ∧ u.side = Side.buy) (stepBar c f i price sig st).trades) := by
  by_cases h1 : sig = 1 ∧ st.position = 0
  · rw [stepBar_buy h1]
    have htr : TsIncreasing (st.trades ++ [⟨i, Side.buy, price, st.balance * f / price,
        st.balance - (st.balance * f + st.balance * f * c)⟩]) :=
      tsIncreasing_append hts fun a ha => hbd a ha
    have hb' : ∀ t ∈ st.trades ++ [⟨i, Side.buy, price, st.balance * f / price,
        st.balance - (st.balance * f + st.balance * f * c)⟩], t.timestamp < i + 1 := by
      intro t ht
      rcases List.mem_append.mp ht with ht | ht
      · exact Nat.lt_succ_of_lt (hbd t ht)
      · rw [List.mem_singleton.mp ht]; exact Nat.lt_succ_self i
    refine ⟨htr, hb', ?_⟩
    rcases hmode with ⟨hp0, hbpos, hsh⟩ | ⟨hppos, _⟩ | ⟨hp0, hb0, hsh⟩ | ⟨hp0, hbneg, hsh⟩
      | ⟨hpneg, _⟩
    · -- flat, positive cash: real entry; new position is nonzero
      have hq : st.balance * f / price ≠ 0 :=
        div_ne_zero (mul_ne_zero (ne_of_gt hbpos) (ne_of_gt hf)) hpr
      rcases hq.lt_or_lt with hq | hq
      · exact Or.inr (Or.inr (Or.inr (Or.inr ⟨hq, pairs_append_buy hsh rfl⟩)))
      · exact Or.inr (Or.inl ⟨hq, pairs_append_buy hsh rfl⟩)
    · exact absurd h1.2 (ne_of_gt hppos)
    · -- flat, zero cash: degenerate zero-quantity Buy
      refine Or.inr (Or.inr (Or.inl ⟨?_, ?_, gen_append_buy hsh rfl⟩))
      · rw [hb0]; simp
      · rw [hb0]; ring
    · -- flat, negative cash: one last nonzero Buy
      have hq : st.balance * f / price ≠ 0 :=
        div_ne_zero (mul_ne_zero (ne_of_lt hbneg) (ne_of_gt hf)) hpr
      rcases hq.lt_or_lt with hq | hq
      · exact Or.inr (Or.inr (Or.inr (Or.inr ⟨hq, pairs_append_buy hsh rfl⟩)))
      · exact Or.inr (Or.inl ⟨hq, pairs_append_buy hsh rfl⟩)
    · exact absurd h1.2 (ne_of_lt hpneg)
  · by_cases h2 : sig = -1 ∧ 0 < st.position
    · rw [stepBar_sell h1 h2]
      have htr : TsIncreasing (st.trades ++ [⟨i, Side.sell, price, st.position,
          st.balance + (st.position * price - st.position * price * c)⟩]) :=
        tsIncreasing_append hts fun a ha => hbd a ha
      have hb' : ∀ t ∈ st.trades ++ [⟨i, Side.sell, price, st.position,
          st.balance + (st.position * price - st.position * price * c)⟩],
          t.timestamp < i + 1 := by
        intro t ht
        rcases List.mem_append.mp ht with ht | ht
        · exact Nat.lt_succ_of_lt (hbd t ht)
        · rw [List.mem_singleton.mp ht]; exact Nat.lt_succ_self i
      refine ⟨htr, hb', ?_⟩
      have hsh : PairsThen (fun l => ∃ u, l = [u] ∧ u.side = Side.buy) st.trades := by
        rcases hmode with ⟨hp0, -, -⟩ | ⟨-, hsh⟩ | ⟨hp0, -, -⟩ | ⟨hp0, -, -⟩ | ⟨hpneg, -⟩
        · exact absurd hp0 (ne_of_gt h2.2)
        · exact hsh
        · exact absurd hp0 (ne_of_gt h2.2)
        · exact absurd hp0 (ne_of_gt h2.2)
        · exact absurd h2.2 (asymm hpneg)
      have hpairs : PairsThen (· = []) (st.trades ++ [⟨i, Side.sell, price, st.position,
          st.balance + (st.position * price - st.position * price * c)⟩]) :=
        pairsB_append_sell hsh rfl
      rcases lt_trichotomy (st.balance + (st.position * price - st.position * price * c)) 0
        with hb0 | hb0 | hb0
      · exact Or.inr (Or.inr (Or.inr (Or.inl ⟨rfl, hb0, hpairs⟩)))
      · refine Or.inr (Or.inr (Or.inl ⟨rfl, hb0, ?_⟩))
        refine pairsThen_mono (fun l hl => ?_) hpairs
        rw [hl]
        exact fun t ht => absurd ht (List.not_mem_nil t)
      · exact Or.inl ⟨rfl, hb0, hpairs⟩
    · rw [stepBar_noop h1 h2]
      exact ⟨hts, fun t ht => Nat.lt_succ_of_lt (hbd t ht), hmode⟩

theorem pairs_to_gen {l : List Trade} (h : PairsThen (· = []) l) : PairsThen AllBuys l :=
  pairsThen_mono
    (fun l' hl' => by rw [hl']; exact fun t ht => absurd ht (List.not_mem_nil t)) h

theorem pairsB_to_gen {l : List Trade}
    (h : PairsThen (fun l' => ∃ u, l' = [u] ∧ u.side = Side.buy) l) :
    PairsThen AllBuys l :=
  pairsThen_mono
    (fun l' hl' => by
      obtain ⟨u, rfl, hu⟩ := hl'
      intro t ht
      rw [List.mem_singleton.mp ht]
      exact hu) h

/-- The whole loop preserves the shape invariant: after any in-range number of
bars the trade log has strictly increasing timestamps, bounded by the bar
counter, and is pairs-then-Buys in one of the five modes. -/
theorem runSteps_shape_inv (c f b : ℚ) (closes : List ℚ) (signals : List ℤ)
    (hf : 0 < f) (hpr : ∀ x ∈ closes, x ≠ 0) :
    ∀ k, k ≤ closes.length - 1 →
      TsIncreasing (runSteps c f b closes signals k).trades ∧
      (∀ t ∈ (runSteps c f b closes signals k).trades, t.timestamp < k + 1) ∧
      ((runSteps c f b closes signals k).position = 0 ∧
          0 < (runSteps c f b closes signals k).balance ∧
          PairsThen (· = []) (runSteps c f b closes signals k).trades
        ∨ 0 < (runSteps c f b closes signals k).position ∧
          PairsThen (fun l => ∃ u, l = [u] ∧ u.side = Side.buy)
            (runSteps c f b closes signals k).trades
        ∨ (runSteps c f b closes signals k).position = 0 ∧
          (runSteps c f b closes signals k).balance = 0 ∧
          PairsThen AllBuys (runSteps c f b closes signals k).trades
        ∨ (runSteps c f b closes signals k).position = 0 ∧
          (runSteps c f b closes signals k).balance < 0 ∧
          PairsThen (· = []) (runSteps c f b closes signals k).trades
        ∨ (runSteps c f b closes signals k).position < 0 ∧
          PairsThen (fun l => ∃ u, l = [u] ∧ u.side = Side.buy)
            (runSteps c f b closes signals k).trades) := by
  intro k
  induction k with
  | zero =>
      intro _
      refine ⟨List.Pairwise.nil, by simp [runSteps, initState], ?_⟩
      rcases lt_trichotomy b 0 with hb | hb | hb
      · exact Or.inr (Or.inr (Or.inr (Or.inl ⟨rfl, hb, PairsThen.base [] rfl⟩)))
      · exact Or.inr (Or.inr (Or.inl ⟨rfl, hb,
          PairsThen.base [] fun t ht => absurd ht (List.not_mem_nil t)⟩))
      · exact Or.inl ⟨rfl, hb, PairsThen.base [] rfl⟩
  | succ k ih =>
      intro hk
      obtain ⟨hts, hbd, hmode⟩ := ih (by omega)
      have hpr' : closes.getD (k + 1) 0 ≠ 0 := by
        have hlt : k + 1 < closes.length := by omega
        rw [List.getD_eq_getElem?_getD, List.getElem?_eq_getElem hlt]
        exact hpr _ (List.getElem_mem ..)
      rw [runSteps]
      exact stepBar_shape_inv hf hpr' (signals.getD k 0) hts hbd hmode

/-- **C9**: with nonzero prices and a positive position-size fraction, the
win-rate metric of a result equals the spec-side computation — each Buy
paired with the earliest strictly-later Sell, each Sell consumed by at most
one Buy, pair profit `(sell_price - buy_price) / buy_price`, win rate
`(# profitable pairs) / (# pairs) * 100` — and it is 0 whenever there are
zero completed pairs. -/
theorem C9_win_rate (b c f : ℚ) (closes : List ℚ) (signals : List ℤ)
    (hf : 0 < f) (hpr : ∀ x ∈ closes, x ≠ 0) :
    (run_backtest b c f closes signals).win_rate
        = winRateSpec (run_backtest b c f closes signals).trades ∧
    (specProfits (run_backtest b c f closes signals).trades = [] →
      (run_backtest b c f closes signals).win_rate = 0) := by
  have htr : (run_backtest b c f closes signals).trades
      = (runSteps c f b closes signals (closes.length - 1)).trades := by
    simp only [run_backtest]
    exact closeFinal_trades ..
  have hwr : (run_backtest b c f closes signals).win_rate
      = winRateOf (runSteps c f b closes signals (closes.length - 1)).trades := by
    simp only [run_backtest]
    rw [closeFinal_trades]
  obtain ⟨hts, -, hmode⟩ :=
    runSteps_shape_inv c f b closes signals hf hpr (closes.length - 1) le_rfl
  have hshape : PairsThen AllBuys (runSteps c f b closes signals (closes.length - 1)).trades := by
    rcases hmode with ⟨-, -, h⟩ | ⟨-, h⟩ | ⟨-, -, h⟩ | ⟨-, -, h⟩ | ⟨-, h⟩
    · exact pairs_to_gen h
    · exact pairsB_to_gen h
    · exact h
    · exact pairs_to_gen h
    · exact pairsB_to_gen h
  have key := profitsCode_eq_specProfits hts hshape
  have heq := winRateOf_eq_spec key
  refine ⟨?_, fun hnil => ?_⟩
  · rw [hwr, heq, htr]
  · rw [hwr, heq, winRateSpec, if_pos]
    rw [← htr]
    exact hnil

/-- Witness for C9: a five-bar run with two completed Buy/Sell pairs. -/
theorem C9_witness :
    (run_backtest 100 0 (1 / 2) [1, 1, 2, 1, 1] [1, -1, 1, -1, 0]).win_rate
      = winRateSpec (run_backtest 100 0 (1 / 2) [1, 1, 2, 1, 1] [1, -1, 1, -1, 0]).trades :=
  (C9_win_rate 100 0 (1 / 2) [1, 1, 2, 1, 1] [1, -1, 1, -1, 0] (by norm_num)
    (by intro x hx; fin_cases hx <;> norm_num)).1
